import Mathlib

/-!
# Verification of the anti-poaching patrol route generator

Shallow embedding of the route-generation algorithm in
`frontend/js/app.js` (`runLocalOptimization`, `getNeighbors`).

Modelling conventions:
* JavaScript numbers are embedded as exact rationals (`ℚ`); grid
  coordinates and counters as `ℕ`.
* `Math.random()`-driven start selection is embedded by an explicit
  stream `ℕ → ℕ × ℕ` of samples; `Math.floor(Math.random() * gridSize)`
  becomes `sample % gridSize`.  The unbounded `do … while` retry loop is
  embedded with explicit fuel: `none` models non-termination of the
  retry loop (no number of attempts succeeds).
* JavaScript array indexing `a[r][c]` is embedded with `List.getD`
  (out-of-bounds reads yield the type's default, which the in-bounds
  invariants make irrelevant).
* `x.toFixed(0)` on a finite number is embedded as `⌊x + 1/2⌋`
  (ECMAScript rounds to the nearest integer, ties toward the larger).
* The `riskReduction` statistic divides by `beforeRisk`; when
  `beforeRisk = 0` the JavaScript source produces `NaN` (the string
  `"NaN%"`), which is embedded as `none : Option ℤ`.
-/

namespace AntiPoaching

/-- The parameter record passed to `runLocalOptimization`. -/
structure Params where
  gridSize : ℕ
  rangerCount : ℕ
  maxSteps : ℕ
  riskMap : List (List ℚ)
  animalMap : List (List Bool)
  terrainMap : List (List ℕ)
deriving Repr, DecidableEq

/-- `params.terrainMap[r][c]` (out-of-bounds reads as `0`). -/
def terrainAt (p : Params) (r c : ℕ) : ℕ :=
  (p.terrainMap.getD r []).getD c 0

/-- `params.riskMap[r][c]` (out-of-bounds reads as `0`). -/
def riskAt (p : Params) (r c : ℕ) : ℚ :=
  (p.riskMap.getD r []).getD c 0

/-- `params.animalMap[r][c]` (out-of-bounds reads as `false`). -/
def animalAt (p : Params) (r c : ℕ) : Bool :=
  (p.animalMap.getD r []).getD c false

/-- The fixed direction order of `getNeighbors`:
`[[-1, 0], [1, 0], [0, -1], [0, 1]]` — up, down, left, right. -/
def directions : List (ℤ × ℤ) := [(-1, 0), (1, 0), (0, -1), (0, 1)]

/-- `getNeighbors(row, col, params)`: the in-bounds passable orthogonal
neighbours of `(row, col)`, in the fixed order up, down, left, right. -/
def getNeighbors (p : Params) (row col : ℕ) : List (ℕ × ℕ) :=
  directions.filterMap fun d =>
    if 0 ≤ (row : ℤ) + d.1 ∧ (row : ℤ) + d.1 < (p.gridSize : ℤ) ∧
        0 ≤ (col : ℤ) + d.2 ∧ (col : ℤ) + d.2 < (p.gridSize : ℤ) ∧
        terrainAt p ((row : ℤ) + d.1).toNat ((col : ℤ) + d.2).toNat = 1 then
      some (((row : ℤ) + d.1).toNat, ((col : ℤ) + d.2).toNat)
    else
      none

/-- Read `coverage[r][c]` (out-of-bounds reads as `0`). -/
def covGet (cov : List (List ℕ)) (r c : ℕ) : ℕ :=
  (cov.getD r []).getD c 0

/-- `coverage[r][c]++`: increment one cell of the coverage grid. -/
def covInc (cov : List (List ℕ)) (r c : ℕ) : List (List ℕ) :=
  cov.set r ((cov.getD r []).set c (covGet cov r c + 1))

/-- The per-neighbour score
`(risk[nr][nc] * 2 + (animalMap[nr][nc] ? 1 : 0)) / (coverage[nr][nc] + 1)`. -/
def score (p : Params) (cov : List (List ℕ)) (cell : ℕ × ℕ) : ℚ :=
  (riskAt p cell.1 cell.2 * 2 + (if animalAt p cell.1 cell.2 then 1 else 0)) /
    ((covGet cov cell.1 cell.2 : ℚ) + 1)

/-- One iteration of the scoring loop.  The accumulator is
`(bestNeighbor, bestScore)` where `none` models the initial
`bestScore = -Infinity`; a candidate replaces the best only when its
score is strictly greater. -/
def stepFold (p : Params) (cov : List (List ℕ)) (acc : (ℕ × ℕ) × Option ℚ)
    (n : ℕ × ℕ) : (ℕ × ℕ) × Option ℚ :=
  let s := score p cov n
  match acc.2 with
  | none => (n, some s)
  | some b => if b < s then (n, some s) else acc

/-- The neighbour-selection loop of the greedy walk:
`bestNeighbor = neighbors[0]`, `bestScore = -Infinity`, then scan the
candidate list updating on strict improvement.  Returns `none` exactly
when the candidate list is empty (the walk `break`s). -/
def chooseNeighbor (p : Params) (cov : List (List ℕ)) :
    List (ℕ × ℕ) → Option (ℕ × ℕ)
  | [] => none
  | h :: t => some ((h :: t).foldl (stepFold p cov) (h, none)).1

/-- The greedy walk (`for (let step = 1; step < maxSteps; step++)`),
with `fuel = maxSteps - 1` remaining iterations.  Each iteration picks
the best-scoring neighbour of the current cell, appends it to the path
and increments its coverage; it stops early when no neighbour exists. -/
def walk (p : Params) : ℕ → ℕ → ℕ → List (ℕ × ℕ) → List (List ℕ) →
    List (ℕ × ℕ) × List (List ℕ)
  | 0, _, _, path, cov => (path, cov)
  | fuel + 1, row, col, path, cov =>
    match chooseNeighbor p cov (getNeighbors p row col) with
    | none => (path, cov)
    | some b => walk p fuel b.1 b.2 (path ++ [b]) (covInc cov b.1 b.2)

/-- The start-selection retry loop
(`do { sample } while (terrainMap[startRow][startCol] === 0)`), with
explicit fuel.  `k` is the position in the random stream; on success it
returns the chosen cell together with the next stream position.
`none` models the loop not having terminated within `fuel` attempts. -/
def findStart (p : Params) (stream : ℕ → ℕ × ℕ) (k : ℕ) :
    ℕ → Option ((ℕ × ℕ) × ℕ)
  | 0 => none
  | fuel + 1 =>
    if terrainAt p ((stream k).1 % p.gridSize) ((stream k).2 % p.gridSize)
        = 0 then
      findStart p stream (k + 1) fuel
    else
      some (((stream k).1 % p.gridSize, (stream k).2 % p.gridSize), k + 1)

/-- One returned route: `{ rangerId: r, path: path }`. -/
structure Route where
  rangerId : ℕ
  path : List (ℕ × ℕ)
deriving Repr, DecidableEq

/-- The per-ranger generation loop (`for (let r = 0; …)`), recursing on
the number of rangers still to generate.  `rid` is the next `rangerId`,
`k` the current random-stream position; routes are appended in
generation order and the coverage grid is threaded through. -/
def genRangers (p : Params) (stream : ℕ → ℕ × ℕ) (fuel : ℕ) :
    ℕ → ℕ → ℕ → List Route → List (List ℕ) →
    Option (List Route × List (List ℕ))
  | 0, _, _, acc, cov => some (acc, cov)
  | remaining + 1, rid, k, acc, cov =>
    match findStart p stream k fuel with
    | none => none
    | some (s, k1) =>
      genRangers p stream fuel remaining (rid + 1) k1
        (acc ++ [⟨rid,
          (walk p (p.maxSteps - 1) s.1 s.2 [(s.1, s.2)]
            (covInc cov s.1 s.2)).1⟩])
        (walk p (p.maxSteps - 1) s.1 s.2 [(s.1, s.2)]
          (covInc cov s.1 s.2)).2

/-- The four running totals of the statistics loop. -/
structure StatTotals where
  totalRisk : ℚ
  coveredRisk : ℚ
  highRiskCells : ℕ
  coveredHighRisk : ℕ
deriving Repr, DecidableEq

/-- One iteration of the statistics loop: a passable cell
(`terrainMap[row][col] === 1`) contributes its risk to `totalRisk`,
`risk * 0.2` to `coveredRisk` when covered and its full risk otherwise,
and is tallied among (covered) high-risk cells when `risk ≥ 0.7`. -/
def statsStep (p : Params) (cov : List (List ℕ)) (acc : StatTotals)
    (cell : ℕ × ℕ) : StatTotals :=
  if terrainAt p cell.1 cell.2 = 1 then
    ⟨acc.totalRisk + riskAt p cell.1 cell.2,
     acc.coveredRisk +
       (if 0 < covGet cov cell.1 cell.2 then riskAt p cell.1 cell.2 * (1 / 5)
        else riskAt p cell.1 cell.2),
     acc.highRiskCells +
       (if 7 / 10 ≤ riskAt p cell.1 cell.2 then 1 else 0),
     acc.coveredHighRisk +
       (if 7 / 10 ≤ riskAt p cell.1 cell.2 ∧ 0 < covGet cov cell.1 cell.2
        then 1 else 0)⟩
  else
    acc

/-- All cells `(row, col)` of the nested statistics loop, row-major. -/
def cellList (n : ℕ) : List (ℕ × ℕ) :=
  (List.range n).flatMap fun r => (List.range n).map fun c => (r, c)

/-- The statistics totals after the nested loop over all cells. -/
def computeTotals (p : Params) (cov : List (List ℕ)) : StatTotals :=
  (cellList p.gridSize).foldl (statsStep p cov) ⟨0, 0, 0, 0⟩

/-- `x.toFixed(0)` on a finite number: round to the nearest integer,
ties toward the larger integer. -/
def jsToFixed0 (x : ℚ) : ℤ := ⌊x + 1 / 2⌋

/-- The returned `stats` record.  `riskReduction` is `none` when
`beforeRisk = 0`, modelling the JavaScript `NaN` produced by the
division `(beforeRisk - afterRisk) / beforeRisk` there (the source
formats it as the string `"NaN%"`). -/
structure Stats where
  beforeRisk : ℚ
  afterRisk : ℚ
  riskReduction : Option ℤ
  highRiskCoverage : ℤ
deriving Repr, DecidableEq

/-- The statistics computation that follows route generation. -/
def statsOf (p : Params) (cov : List (List ℕ)) : Stats :=
  let t := computeTotals p cov
  let beforeRisk := t.totalRisk / ((p.gridSize : ℚ) * p.gridSize)
  let afterRisk := t.coveredRisk / ((p.gridSize : ℚ) * p.gridSize)
  let reduction : Option ℤ :=
    if beforeRisk = 0 then none
    else some (jsToFixed0 ((beforeRisk - afterRisk) / beforeRisk * 100))
  let highCoverage : ℤ :=
    if 0 < t.highRiskCells then
      jsToFixed0 ((t.coveredHighRisk : ℚ) / t.highRiskCells * 100)
    else 100
  ⟨beforeRisk, afterRisk, reduction, highCoverage⟩

/-- The returned `{ routes, coverage, stats }` record. -/
structure RunResult where
  routes : List Route
  coverage : List (List ℕ)
  stats : Stats
deriving Repr, DecidableEq

/-- `runLocalOptimization(params)`, given an explicit random stream and
retry fuel.  `none` models the start-selection retry loop failing to
terminate within `fuel` attempts for some ranger. -/
def runLocalOptimization (p : Params) (stream : ℕ → ℕ × ℕ) (fuel : ℕ) :
    Option RunResult :=
  let cov0 := List.replicate p.gridSize (List.replicate p.gridSize 0)
  match genRangers p stream fuel p.rangerCount 0 0 [] cov0 with
  | none => none
  | some rc => some ⟨rc.1, rc.2, statsOf p rc.2⟩

/-- Per-cell contribution to `totalRisk`: full risk of passable cells. -/
def riskContrib (p : Params) (cell : ℕ × ℕ) : ℚ :=
  if terrainAt p cell.1 cell.2 = 1 then riskAt p cell.1 cell.2 else 0

/-- Per-cell contribution to `coveredRisk`: passable cells contribute
`risk * 0.2` when covered and their full risk otherwise. -/
def coveredContrib (p : Params) (cov : List (List ℕ)) (cell : ℕ × ℕ) : ℚ :=
  if terrainAt p cell.1 cell.2 = 1 then
    (if 0 < covGet cov cell.1 cell.2 then riskAt p cell.1 cell.2 * (1 / 5)
     else riskAt p cell.1 cell.2)
  else 0

/-- Per-cell contribution to the high-risk cell tally. -/
def highContrib (p : Params) (cell : ℕ × ℕ) : ℕ :=
  if terrainAt p cell.1 cell.2 = 1 ∧ 7 / 10 ≤ riskAt p cell.1 cell.2 then 1
  else 0

/-- Per-cell contribution to the covered high-risk cell tally. -/
def coveredHighContrib (p : Params) (cov : List (List ℕ))
    (cell : ℕ × ℕ) : ℕ :=
  if terrainAt p cell.1 cell.2 = 1 ∧ 7 / 10 ≤ riskAt p cell.1 cell.2 ∧
      0 < covGet cov cell.1 cell.2 then 1
  else 0

/-- Reference definition from the claim: the sum of risk over passable
cells divided by `gridSize²`. -/
def specBeforeRisk (p : Params) : ℚ :=
  (∑ r in Finset.range p.gridSize, ∑ c in Finset.range p.gridSize,
      if terrainAt p r c = 1 then riskAt p r c else 0) /
    ((p.gridSize : ℚ) * p.gridSize)

/-- Reference definition from the claim: the same sum, but each covered
passable cell contributes `risk * 0.2` instead of its risk, divided by
`gridSize²`. -/
def specAfterRisk (p : Params) (cov : List (List ℕ)) : ℚ :=
  (∑ r in Finset.range p.gridSize, ∑ c in Finset.range p.gridSize,
      if terrainAt p r c = 1 then
        (if 0 < covGet cov r c then riskAt p r c * (1 / 5) else riskAt p r c)
      else 0) /
    ((p.gridSize : ℚ) * p.gridSize)

/-- Reference definition from the claim: the cells with `risk ≥ 0.7`. -/
def specHighRiskCells (p : Params) : Finset (ℕ × ℕ) :=
  (Finset.range p.gridSize ×ˢ Finset.range p.gridSize).filter
    fun rc => 7 / 10 ≤ riskAt p rc.1 rc.2

/-- Reference definition from the claim: the cells with `risk ≥ 0.7`
that have `coverage > 0`. -/
def specHighRiskCovered (p : Params) (cov : List (List ℕ)) :
    Finset (ℕ × ℕ) :=
  (specHighRiskCells p).filter fun rc => 0 < covGet cov rc.1 rc.2

/-- Reference definition from the claim: the percentage of cells with
`risk ≥ 0.7` that have `coverage > 0` (rounded as `toFixed(0)` does),
defined as `100%` when no such cells exist. -/
def specHighRiskCoverage (p : Params) (cov : List (List ℕ)) : ℤ :=
  if (specHighRiskCells p).card = 0 then 100
  else
    jsToFixed0 (((specHighRiskCovered p cov).card : ℚ) /
      ((specHighRiskCells p).card : ℚ) * 100)

/-- Two cells differ by exactly one orthogonal unit step
(Manhattan distance 1: same row and adjacent columns, or same column
and adjacent rows). -/
def adjacent (a b : ℕ × ℕ) : Prop :=
  (a.1 = b.1 ∧ (a.2 + 1 = b.2 ∨ b.2 + 1 = a.2)) ∨
    (a.2 = b.2 ∧ (a.1 + 1 = b.1 ∨ b.1 + 1 = a.1))

instance (a b : ℕ × ℕ) : Decidable (adjacent a b) := by
  unfold adjacent; infer_instance

/-- A cell that may appear in a route: in bounds and passable. -/
def ValidCell (p : Params) (cell : ℕ × ℕ) : Prop :=
  cell.1 < p.gridSize ∧ cell.2 < p.gridSize ∧ terrainAt p cell.1 cell.2 = 1

instance (p : Params) (cell : ℕ × ℕ) : Decidable (ValidCell p cell) := by
  unfold ValidCell; infer_instance

/-- Well-formed terrain input, as required by the data model: a
`gridSize × gridSize` array with entries in `{0 = impassable,
1 = passable}`. -/
def WFTerrain (p : Params) : Prop :=
  p.terrainMap.length = p.gridSize ∧
    (∀ row ∈ p.terrainMap, row.length = p.gridSize) ∧
    ∀ row ∈ p.terrainMap, ∀ v ∈ row, v = 0 ∨ v = 1

instance (p : Params) : Decidable (WFTerrain p) := by
  unfold WFTerrain; infer_instance

/-- The coverage grid has `n` rows of `n` entries each. -/
def CovShape (n : ℕ) (cov : List (List ℕ)) : Prop :=
  cov.length = n ∧ ∀ row ∈ cov, row.length = n

/-- First-wins maximum: scan the list keeping the current best, replace
it only on a strictly greater value.  `firstMax f b t` is the selected
element when `b` is the current best and `t` the remaining candidates. -/
def firstMax (f : α → ℚ) (b : α) : List α → α
  | [] => b
  | x :: t => if f b < f x then firstMax f x t else firstMax f b t

/-- A fixed (degenerate) seeded random source: every sample is `(0, 0)`. -/
def constStream : ℕ → ℕ × ℕ := fun _ => (0, 0)

/-- 3×3 all-passable map, risk `1.0` at the centre and `0` elsewhere,
no animals, one ranger, three steps (Scenario C of the spec). -/
def pOpen : Params :=
  ⟨3, 1, 3,
   [[0, 0, 0], [0, 1, 0], [0, 0, 0]],
   [[false, false, false], [false, false, false], [false, false, false]],
   [[1, 1, 1], [1, 1, 1], [1, 1, 1]]⟩

/-- An all-zero 3×3 coverage grid. -/
def covOpen0 : List (List ℕ) := List.replicate 3 (List.replicate 3 0)

/-- The result of `runLocalOptimization pOpen constStream 1`. -/
def resOpen : RunResult :=
  ⟨[⟨0, [(0, 0), (1, 0), (1, 1)]⟩],
   [[1, 0, 0], [1, 1, 0], [0, 0, 0]],
   ⟨1 / 9, 1 / 45, some 80, 100⟩⟩

/-- 2×2 map whose only passable cells form the corridor
`(0,0) – (0,1)`; zero risk, no animals, one ranger, three steps. -/
def pCorridor : Params :=
  ⟨2, 1, 3,
   [[0, 0], [0, 0]],
   [[false, false], [false, false]],
   [[1, 1], [0, 0]]⟩

/-- 2×2 map with every cell impassable (Scenario D of the spec). -/
def pBlocked : Params :=
  ⟨2, 1, 3,
   [[0, 0], [0, 0]],
   [[false, false], [false, false]],
   [[0, 0], [0, 0]]⟩

/-- 1×1 passable map with uniform risk `0` (Scenario B of the spec). -/
def pZeroRisk : Params :=
  ⟨1, 1, 1, [[0]], [[false]], [[1]]⟩

/-- 1×1 passable map with risk `0.5` and `rangerCount = 0`. -/
def pNoRangers : Params :=
  ⟨1, 0, 3, [[1 / 2]], [[false]], [[1]]⟩

end AntiPoaching

unseal Rat.add Rat.mul Rat.inv Rat.sub

namespace AntiPoaching

section Helpers

variable {p : Params}

/-- A nonzero terrain read is in bounds and (for `{0,1}`-valued
terrain) equal to `1`. -/
theorem terrainAt_ne_zero (hwf : WFTerrain p) {r c : ℕ}
    (h : terrainAt p r c ≠ 0) :
    r < p.gridSize ∧ c < p.gridSize ∧ terrainAt p r c = 1 := by
  obtain ⟨hlen, hrow, hval⟩ := hwf
  unfold terrainAt at h ⊢
  by_cases hr : r < p.terrainMap.length
  · have hrowD : p.terrainMap.getD r [] = p.terrainMap[r] := by
      simp [List.getD_eq_getElem?_getD, List.getElem?_eq_getElem hr]
    rw [hrowD] at h ⊢
    by_cases hc : c < p.terrainMap[r].length
    · have hcD : p.terrainMap[r].getD c 0 = p.terrainMap[r][c] := by
        simp [List.getD_eq_getElem?_getD, List.getElem?_eq_getElem hc]
      rw [hcD] at h ⊢
      have hmem : p.terrainMap[r] ∈ p.terrainMap := List.getElem_mem hr
      have hvmem : p.terrainMap[r][c] ∈ p.terrainMap[r] := List.getElem_mem hc
      rcases hval _ hmem _ hvmem with h0 | h1
      · exact absurd h0 h
      · exact ⟨hlen ▸ hr, (hrow _ hmem) ▸ hc, h1⟩
    · exfalso
      apply h
      simp [List.getD_eq_getElem?_getD, List.getElem?_eq_none (Nat.le_of_not_lt hc)]
  · exfalso
    apply h
    simp [List.getD_eq_getElem?_getD, List.getElem?_eq_none (Nat.le_of_not_lt hr)]

/-- Every cell produced by `getNeighbors` is in bounds, passable, and
orthogonally adjacent to the queried cell. -/
theorem getNeighbors_mem {row col : ℕ} {b : ℕ × ℕ}
    (h : b ∈ getNeighbors p row col) :
    ValidCell p b ∧ adjacent (row, col) b := by
  unfold getNeighbors at h
  rw [List.mem_filterMap] at h
  obtain ⟨d, hd, hfd⟩ := h
  fin_cases hd <;> simp only at hfd <;> split at hfd
  all_goals
    first
      | exact Option.noConfusion hfd
      | (rename_i hcond
         obtain ⟨h1, h2, h3, h4, h5⟩ := hcond
         rw [Option.some.injEq] at hfd
         subst hfd
         exact ⟨⟨by omega, by omega, h5⟩, by unfold adjacent; simp only; omega⟩)

/-- Reading after `covInc`: the incremented cell (when in range) grows
by one, every other cell is unchanged. -/
theorem covGet_covInc (cov : List (List ℕ)) (a b r c : ℕ)
    (ha : a < cov.length) (hb : b < (cov.getD a []).length) :
    covGet (covInc cov a b) r c =
      covGet cov r c + if (a, b) = (r, c) then 1 else 0 := by
  unfold covGet covInc
  by_cases har : a = r
  · subst har
    simp only [List.getD_eq_getElem?_getD, List.getElem?_set_self ha,
      Option.getD_some]
    by_cases hbc : b = c
    · subst hbc
      have hb' : b < ((cov[a]?).getD []).length := by
        simpa [List.getD_eq_getElem?_getD] using hb
      simp [List.getElem?_set_self hb', covGet, List.getD_eq_getElem?_getD]
    · rw [if_neg (by simp [Prod.ext_iff, hbc])]
      simp [List.getElem?_set_ne (fun h => hbc h), covGet,
        List.getD_eq_getElem?_getD]
  · rw [if_neg (by simp [Prod.ext_iff, har])]
    simp [List.getD_eq_getElem?_getD, List.getElem?_set_ne (fun h => har h)]

/-- `covInc` at an in-range row preserves the grid shape. -/
theorem covShape_covInc {n : ℕ} {cov : List (List ℕ)} (h : CovShape n cov)
    (a b : ℕ) (ha : a < n) : CovShape n (covInc cov a b) := by
  obtain ⟨hlen, hrow⟩ := h
  have ha' : a < cov.length := hlen ▸ ha
  constructor
  · simpa [covInc] using hlen
  · intro row hmem
    rcases List.mem_or_eq_of_mem_set hmem with hm | hm
    · exact hrow _ hm
    · subst hm
      rw [List.length_set]
      have : cov.getD a [] = cov[a] := by
        simp [List.getD_eq_getElem?_getD, List.getElem?_eq_getElem ha']
      rw [this]
      exact hrow _ (List.getElem_mem ha')

/-- The initial coverage grid is all zeroes. -/
theorem covGet_replicate (n r c : ℕ) :
    covGet (List.replicate n (List.replicate n 0)) r c = 0 := by
  unfold covGet
  simp only [List.getD_eq_getElem?_getD, List.getElem?_replicate]
  split <;> simp [List.getElem?_replicate] <;> split <;> simp

/-- The initial coverage grid has the right shape. -/
theorem covShape_replicate (n : ℕ) :
    CovShape n (List.replicate n (List.replicate n 0)) := by
  refine ⟨List.length_replicate n _, ?_⟩
  intro row hmem
  rw [(List.eq_of_mem_replicate hmem : row = List.replicate n 0)]
  exact List.length_replicate n _

/-- A successful start selection returns a passable cell (the loop
exits only on `terrainMap[startRow][startCol] !== 0`). -/
theorem findStart_passable (p : Params) (stream : ℕ → ℕ × ℕ) :
    ∀ fuel k s k1, findStart p stream k fuel = some (s, k1) →
      terrainAt p s.1 s.2 ≠ 0 := by
  intro fuel
  induction fuel with
  | zero => intro k s k1 h; simp [findStart] at h
  | succ fuel ih =>
    intro k s k1 h
    unfold findStart at h
    split at h
    · exact ih (k + 1) s k1 h
    · rename_i hcond
      rw [Option.some.injEq, Prod.mk.injEq] at h
      obtain ⟨rfl, -⟩ := h
      exact hcond

/-- Scanning the candidates with `stepFold` from a genuine
`(best, some bestScore)` state computes the first-wins maximum. -/
theorem foldl_stepFold (p : Params) (cov : List (List ℕ)) :
    ∀ (t : List (ℕ × ℕ)) (b : ℕ × ℕ),
      (t.foldl (stepFold p cov) (b, some (score p cov b))).1 =
        firstMax (score p cov) b t := by
  intro t
  induction t with
  | nil => intro b; rfl
  | cons x t ih =>
    intro b
    rw [List.foldl_cons]
    by_cases h : score p cov b < score p cov x
    · have hstep : stepFold p cov (b, some (score p cov b)) x =
          (x, some (score p cov x)) := by
        simp [stepFold, h]
      rw [hstep, ih, firstMax, if_pos h]
    · have hstep : stepFold p cov (b, some (score p cov b)) x =
          (b, some (score p cov b)) := by
        simp [stepFold, h]
      rw [hstep, ih, firstMax, if_neg h]

/-- The scoring loop on a non-empty candidate list selects exactly the
first-wins maximum. -/
theorem chooseNeighbor_eq (p : Params) (cov : List (List ℕ))
    (h : ℕ × ℕ) (t : List (ℕ × ℕ)) :
    chooseNeighbor p cov (h :: t) = some (firstMax (score p cov) h t) := by
  show some ((List.foldl (stepFold p cov) (h, none) (h :: t)).1) = _
  rw [List.foldl_cons]
  have hstep : stepFold p cov (h, none) h = (h, some (score p cov h)) := rfl
  rw [hstep, foldl_stepFold]

/-- The first-wins maximum is one of the candidates. -/
theorem firstMax_mem (f : α → ℚ) :
    ∀ (t : List α) (b : α), firstMax f b t ∈ b :: t := by
  intro t
  induction t with
  | nil => intro b; simp [firstMax]
  | cons x t ih =>
    intro b
    rw [firstMax]
    split
    · exact List.mem_cons_of_mem b (ih x)
    · rcases List.mem_cons.mp (ih b) with h | h
      · rw [h]; exact List.mem_cons_self b (x :: t)
      · exact List.mem_cons_of_mem b (List.mem_cons_of_mem x h)

/-- A selected neighbour is a member of the candidate list. -/
theorem chooseNeighbor_mem {p : Params} {cov : List (List ℕ)}
    {ns : List (ℕ × ℕ)} {b : ℕ × ℕ}
    (h : chooseNeighbor p cov ns = some b) : b ∈ ns := by
  cases ns with
  | nil => simp [chooseNeighbor] at h
  | cons x t =>
    rw [chooseNeighbor_eq, Option.some.injEq] at h
    exact h ▸ firstMax_mem (score p cov) t x

/-- Specification of `firstMax`: the selected candidate achieves the
maximum value, and every candidate strictly before it in the list has
a strictly smaller value (first-wins tie-break). -/
theorem firstMax_spec (f : α → ℚ) :
    ∀ (t : List α) (b : α),
      ∃ pre post, b :: t = pre ++ firstMax f b t :: post ∧
        (∀ x ∈ b :: t, f x ≤ f (firstMax f b t)) ∧
        ∀ x ∈ pre, f x < f (firstMax f b t) := by
  intro t
  induction t with
  | nil =>
    intro b
    exact ⟨[], [], rfl, by simp [firstMax], by simp⟩
  | cons x t ih =>
    intro b
    rw [firstMax]
    by_cases hbx : f b < f x
    · rw [if_pos hbx]
      obtain ⟨pre, post, hsplit, hub, hlt⟩ := ih x
      have hxm : f x ≤ f (firstMax f x t) := hub x (List.mem_cons_self x t)
      refine ⟨b :: pre, post, ?_, ?_, ?_⟩
      · rw [List.cons_append, ← hsplit]
      · intro y hy
        rcases List.mem_cons.mp hy with rfl | hy
        · linarith
        · exact hub y hy
      · intro y hy
        rcases List.mem_cons.mp hy with rfl | hy
        · linarith
        · exact hlt y hy
    · rw [if_neg hbx]
      have hxb : f x ≤ f b := le_of_not_lt hbx
      obtain ⟨pre, post, hsplit, hub, hlt⟩ := ih b
      have hbm : f b ≤ f (firstMax f b t) := hub b (List.mem_cons_self b t)
      cases pre with
      | nil =>
        rw [List.nil_append] at hsplit
        injection hsplit with hbm' hpost
        refine ⟨[], x :: post, ?_, ?_, by simp⟩
        · rw [List.nil_append, ← hbm', ← hpost]
        · intro y hy
          rcases List.mem_cons.mp hy with rfl | hy
          · exact hbm
          · rcases List.mem_cons.mp hy with rfl | hy
            · rw [← hbm']; exact hxb
            · exact hub y (List.mem_cons_of_mem b hy)
      | cons q pre' =>
        rw [List.cons_append] at hsplit
        injection hsplit with hbq ht
        have hbpre : f b < f (firstMax f b t) := by
          have := hlt q (List.mem_cons_self q pre')
          rw [← hbq] at this
          exact this
        refine ⟨b :: x :: pre', post, ?_, ?_, ?_⟩
        · rw [List.cons_append, List.cons_append, ← ht]
        · intro y hy
          rcases List.mem_cons.mp hy with rfl | hy
          · exact hbm
          · rcases List.mem_cons.mp hy with rfl | hy
            · linarith
            · exact hub y (List.mem_cons_of_mem b hy)
        · intro y hy
          rcases List.mem_cons.mp hy with rfl | hy
          · exact hbpre
          · rcases List.mem_cons.mp hy with rfl | hy
            · linarith
            · exact hlt y (List.mem_cons_of_mem q hy)

/-- `covGet_covInc` restated against the grid shape. -/
theorem covGet_covInc_shape {n : ℕ} {cov : List (List ℕ)}
    (h : CovShape n cov) {a b : ℕ} (ha : a < n) (hb : b < n) (r c : ℕ) :
    covGet (covInc cov a b) r c =
      covGet cov r c + if (a, b) = (r, c) then 1 else 0 := by
  have ha' : a < cov.length := h.1 ▸ ha
  apply covGet_covInc
  · exact ha'
  · have hrow : cov.getD a [] = cov[a] := by
      simp [List.getD_eq_getElem?_getD, List.getElem?_eq_getElem ha']
    rw [hrow, h.2 _ (List.getElem_mem ha')]
    exact hb

/-- The walk only extends the given path, by at most `fuel` cells. -/
theorem walk_suffix (p : Params) :
    ∀ fuel row col path cov, ∃ suffix,
      (walk p fuel row col path cov).1 = path ++ suffix ∧
        suffix.length ≤ fuel := by
  intro fuel
  induction fuel with
  | zero =>
    intro row col path cov
    exact ⟨[], by simp [walk], by simp⟩
  | succ fuel ih =>
    intro row col path cov
    unfold walk
    cases hcn : chooseNeighbor p cov (getNeighbors p row col) with
    | none => exact ⟨[], by simp, by simp⟩
    | some b =>
      obtain ⟨suffix, hpath, hlen⟩ :=
        ih b.1 b.2 (path ++ [b]) (covInc cov b.1 b.2)
      refine ⟨b :: suffix, ?_, by simpa using Nat.succ_le_succ hlen⟩
      rw [hpath, List.append_assoc, List.singleton_append]

/-- Cells appended by the walk are valid and consecutive path cells
are orthogonally adjacent, given that the incoming path already
satisfies this and ends at the current cell. -/
theorem walk_good (p : Params) :
    ∀ fuel row col path cov,
      path.getLast? = some (row, col) →
      (∀ x ∈ path, ValidCell p x) →
      List.Chain' adjacent path →
      (∀ x ∈ (walk p fuel row col path cov).1, ValidCell p x) ∧
        List.Chain' adjacent (walk p fuel row col path cov).1 := by
  intro fuel
  induction fuel with
  | zero =>
    intro row col path cov hlast hvalid hchain
    exact ⟨hvalid, hchain⟩
  | succ fuel ih =>
    intro row col path cov hlast hvalid hchain
    unfold walk
    cases hcn : chooseNeighbor p cov (getNeighbors p row col) with
    | none => exact ⟨hvalid, hchain⟩
    | some b =>
      obtain ⟨hvb, hadj⟩ := getNeighbors_mem (chooseNeighbor_mem hcn)
      apply ih b.1 b.2 (path ++ [b]) (covInc cov b.1 b.2)
      · simp [List.getLast?_concat]
      · intro x hx
        rcases List.mem_append.mp hx with hx | hx
        · exact hvalid x hx
        · rw [List.mem_singleton.mp hx]; exact hvb
      · rw [List.chain'_append]
        refine ⟨hchain, List.chain'_singleton b, ?_⟩
        intro x hx y hy
        simp only [List.head?_cons, Option.mem_def, Option.some.injEq] at hy
        rw [hlast] at hx
        simp only [Option.mem_def, Option.some.injEq] at hx
        rw [← hx, ← hy]
        exact hadj

/-- Through the walk, the coverage grid keeps its shape and each cell's
count grows by exactly the number of times the appended path suffix
visits it. -/
theorem walk_count (p : Params) :
    ∀ fuel row col path cov, CovShape p.gridSize cov →
      ∃ suffix,
        (walk p fuel row col path cov).1 = path ++ suffix ∧
        CovShape p.gridSize (walk p fuel row col path cov).2 ∧
        ∀ r c, covGet (walk p fuel row col path cov).2 r c =
          covGet cov r c + suffix.count (r, c) := by
  intro fuel
  induction fuel with
  | zero =>
    intro row col path cov hshape
    exact ⟨[], by simp [walk], hshape, by simp [walk]⟩
  | succ fuel ih =>
    intro row col path cov hshape
    unfold walk
    cases hcn : chooseNeighbor p cov (getNeighbors p row col) with
    | none => exact ⟨[], by simp, hshape, by simp⟩
    | some b =>
      obtain ⟨⟨hb1, hb2, -⟩, -⟩ := getNeighbors_mem (chooseNeighbor_mem hcn)
      have hshape1 : CovShape p.gridSize (covInc cov b.1 b.2) :=
        covShape_covInc hshape b.1 b.2 hb1
      obtain ⟨suffix, hpath, hshape2, hcount⟩ :=
        ih b.1 b.2 (path ++ [b]) (covInc cov b.1 b.2) hshape1
      refine ⟨b :: suffix, ?_, hshape2, ?_⟩
      · rw [hpath, List.append_assoc, List.singleton_append]
      · intro r c
        rw [hcount r c, covGet_covInc_shape hshape hb1 hb2 r c,
          List.count_cons]
        by_cases heq : b = (r, c)
        · have hb' : (b.1, b.2) = (r, c) := heq
          simp [hb', heq]
          omega
        · have hb' : ¬(b.1, b.2) = (r, c) := heq
          simp [hb', heq]

/-- Per-ranger loop, route-structure part: the returned list extends
the accumulator with one route per remaining ranger, `rangerId`s are
assigned sequentially, and each new route is one start cell plus at
most `maxSteps - 1` walked cells. -/
theorem genRangers_routes (p : Params) (stream : ℕ → ℕ × ℕ) (fuel : ℕ) :
    ∀ remaining rid k acc cov routes cov1,
      genRangers p stream fuel remaining rid k acc cov = some (routes, cov1) →
      ∃ new : List Route,
        routes = acc ++ new ∧
        new.length = remaining ∧
        (∀ i (hi : i < new.length), (new.get ⟨i, hi⟩).rangerId = rid + i) ∧
        ∀ rt ∈ new, ∃ s suffix, rt.path = s :: suffix ∧
          suffix.length ≤ p.maxSteps - 1 := by
  intro remaining
  induction remaining with
  | zero =>
    intro rid k acc cov routes cov1 h
    rw [genRangers, Option.some.injEq, Prod.mk.injEq] at h
    obtain ⟨rfl, -⟩ := h
    exact ⟨[], by simp, rfl, fun i hi => absurd hi (by simp), by simp⟩
  | succ m ih =>
    intro rid k acc cov routes cov1 h
    rw [genRangers] at h
    cases hfs : findStart p stream k fuel with
    | none => rw [hfs] at h; exact absurd h (by simp)
    | some sk =>
      obtain ⟨s, k1⟩ := sk
      rw [hfs] at h
      obtain ⟨new', hroutes, hlen, hids, hpaths⟩ :=
        ih (rid + 1) k1 _ _ routes cov1 h
      obtain ⟨suffix, hw, hwlen⟩ :=
        walk_suffix p (p.maxSteps - 1) s.1 s.2 [(s.1, s.2)]
          (covInc cov s.1 s.2)
      refine ⟨⟨rid, (walk p (p.maxSteps - 1) s.1 s.2 [(s.1, s.2)]
          (covInc cov s.1 s.2)).1⟩ :: new', ?_, by simp [hlen], ?_, ?_⟩
      · rw [hroutes, List.append_assoc, List.singleton_append]
      · intro i hi
        cases i with
        | zero => simp
        | succ j =>
          have hj : j < new'.length := by simpa using hi
          have := hids j hj
          simp only [List.get_cons_succ]
          rw [this]
          omega
      · intro rt hrt
        rcases List.mem_cons.mp hrt with rfl | hrt
        · exact ⟨(s.1, s.2), suffix, by simpa using hw, hwlen⟩
        · exact hpaths rt hrt

/-- Per-ranger loop, validity and coverage part: every generated route
consists of valid, consecutively adjacent cells, and the coverage grid
grows by exactly the visit counts of the new routes. -/
theorem genRangers_spec (p : Params) (stream : ℕ → ℕ × ℕ) (fuel : ℕ)
    (hwf : WFTerrain p) :
    ∀ remaining rid k acc cov routes cov1,
      CovShape p.gridSize cov →
      genRangers p stream fuel remaining rid k acc cov = some (routes, cov1) →
      ∃ new : List Route,
        routes = acc ++ new ∧
        (∀ rt ∈ new, (∀ x ∈ rt.path, ValidCell p x) ∧
          List.Chain' adjacent rt.path) ∧
        CovShape p.gridSize cov1 ∧
        ∀ r c, covGet cov1 r c =
          covGet cov r c + ((new.map fun rt => rt.path.count (r, c)).sum) := by
  intro remaining
  induction remaining with
  | zero =>
    intro rid k acc cov routes cov1 hshape h
    rw [genRangers, Option.some.injEq, Prod.mk.injEq] at h
    obtain ⟨rfl, rfl⟩ := h
    exact ⟨[], by simp, by simp, hshape, by simp⟩
  | succ m ih =>
    intro rid k acc cov routes cov1 hshape h
    rw [genRangers] at h
    cases hfs : findStart p stream k fuel with
    | none => rw [hfs] at h; exact absurd h (by simp)
    | some sk =>
      obtain ⟨s, k1⟩ := sk
      rw [hfs] at h
      obtain ⟨hs1, hs2, hs3⟩ :=
        terrainAt_ne_zero hwf (findStart_passable p stream fuel k s k1 hfs)
      have hshape1 : CovShape p.gridSize (covInc cov s.1 s.2) :=
        covShape_covInc hshape s.1 s.2 hs1
      obtain ⟨suffix, hw, hshape2, hcount⟩ :=
        walk_count p (p.maxSteps - 1) s.1 s.2 [(s.1, s.2)]
          (covInc cov s.1 s.2) hshape1
      have hgood :=
        walk_good p (p.maxSteps - 1) s.1 s.2 [(s.1, s.2)]
          (covInc cov s.1 s.2) (by simp)
          (by intro x hx; rw [List.mem_singleton.mp hx]; exact ⟨hs1, hs2, hs3⟩)
          (List.chain'_singleton _)
      obtain ⟨new', hroutes, hprops, hshape3, hcounts⟩ :=
        ih (rid + 1) k1 _ _ routes cov1 hshape2 h
      refine ⟨⟨rid, (walk p (p.maxSteps - 1) s.1 s.2 [(s.1, s.2)]
          (covInc cov s.1 s.2)).1⟩ :: new', ?_, ?_, hshape3, ?_⟩
      · rw [hroutes, List.append_assoc, List.singleton_append]
      · intro rt hrt
        rcases List.mem_cons.mp hrt with rfl | hrt
        · exact hgood
        · exact hprops rt hrt
      · intro r c
        rw [hcounts r c, hcount r c,
          covGet_covInc_shape hshape hs1 hs2 r c]
        simp only [List.map_cons, List.sum_cons, hw, List.singleton_append,
          List.count_cons]
        by_cases heq : (s.1, s.2) = (r, c)
        · simp [heq]
          omega
        · simp [heq]
          omega

/-- Unrolling the statistics loop: each running total is its initial
value plus the sum of the per-cell contributions. -/
theorem foldl_statsStep (p : Params) (cov : List (List ℕ)) :
    ∀ (l : List (ℕ × ℕ)) (acc : StatTotals),
      l.foldl (statsStep p cov) acc =
        ⟨acc.totalRisk + (l.map (riskContrib p)).sum,
         acc.coveredRisk + (l.map (coveredContrib p cov)).sum,
         acc.highRiskCells + (l.map (highContrib p)).sum,
         acc.coveredHighRisk + (l.map (coveredHighContrib p cov)).sum⟩ := by
  intro l
  induction l with
  | nil =>
    intro acc
    cases acc
    simp
  | cons x l ih =>
    intro acc
    rw [List.foldl_cons, ih]
    simp only [List.map_cons, List.sum_cons, statsStep, riskContrib,
      coveredContrib, highContrib, coveredHighContrib]
    by_cases ht : terrainAt p x.1 x.2 = 1
    · simp only [ht, if_true, true_and]
      rw [StatTotals.mk.injEq]
      exact ⟨by ring, by rw [add_assoc], by omega, by omega⟩
    · simp only [ht, if_false, false_and]
      rw [StatTotals.mk.injEq]
      exact ⟨by ring, by rw [zero_add], by omega, by omega⟩

/-- Sum of a function mapped over `List.range` is a `Finset.range`
sum. -/
theorem list_range_map_sum {M : Type _} [AddCommMonoid M]
    (f : ℕ → M) (n : ℕ) :
    ((List.range n).map f).sum = ∑ i in Finset.range n, f i := by
  induction n with
  | zero => simp
  | succ n ih =>
    rw [List.range_succ, List.map_append, List.sum_append,
      Finset.sum_range_succ, ih]
    simp

/-- Sum of a function over the row-major cell enumeration is the double
`Finset.range` sum. -/
theorem cellList_map_sum {M : Type _} [AddCommMonoid M]
    (f : ℕ × ℕ → M) (n : ℕ) :
    ((cellList n).map f).sum =
      ∑ r in Finset.range n, ∑ c in Finset.range n, f (r, c) := by
  have hrow : ∀ L : List ℕ,
      ((L.flatMap fun r => (List.range n).map fun c => (r, c)).map f).sum =
        (L.map fun r => ((List.range n).map fun c => f (r, c)).sum).sum := by
    intro L
    induction L with
    | nil => simp
    | cons r L ihL =>
      rw [List.flatMap_cons, List.map_append, List.sum_append, ihL,
        List.map_cons, List.sum_cons, List.map_map]
      rfl
  unfold cellList
  rw [hrow (List.range n), list_range_map_sum]
  exact Finset.sum_congr rfl fun r _ => list_range_map_sum _ n

/-- The `totalRisk` accumulator equals the double sum of per-cell risk
contributions. -/
theorem computeTotals_totalRisk (p : Params) (cov : List (List ℕ)) :
    (computeTotals p cov).totalRisk =
      ∑ r in Finset.range p.gridSize, ∑ c in Finset.range p.gridSize,
        riskContrib p (r, c) := by
  unfold computeTotals
  rw [foldl_statsStep, cellList_map_sum]
  simp

/-- The `coveredRisk` accumulator equals the double sum of per-cell
covered-risk contributions. -/
theorem computeTotals_coveredRisk (p : Params) (cov : List (List ℕ)) :
    (computeTotals p cov).coveredRisk =
      ∑ r in Finset.range p.gridSize, ∑ c in Finset.range p.gridSize,
        coveredContrib p cov (r, c) := by
  unfold computeTotals
  rw [foldl_statsStep]
  simp [cellList_map_sum]

/-- The `highRiskCells` accumulator counts the high-risk passable
cells. -/
theorem computeTotals_highRiskCells (p : Params) (cov : List (List ℕ)) :
    (computeTotals p cov).highRiskCells =
      ∑ r in Finset.range p.gridSize, ∑ c in Finset.range p.gridSize,
        highContrib p (r, c) := by
  unfold computeTotals
  rw [foldl_statsStep]
  simp [cellList_map_sum]

/-- The `coveredHighRisk` accumulator counts the covered high-risk
passable cells. -/
theorem computeTotals_coveredHighRisk (p : Params) (cov : List (List ℕ)) :
    (computeTotals p cov).coveredHighRisk =
      ∑ r in Finset.range p.gridSize, ∑ c in Finset.range p.gridSize,
        coveredHighContrib p cov (r, c) := by
  unfold computeTotals
  rw [foldl_statsStep]
  simp [cellList_map_sum]

/-- Under the data-model convention that impassable cells carry risk
`0`, the high-risk tally equals the cardinality of the claim's
high-risk cell set. -/
theorem highRiskCells_eq_card (p : Params) (cov : List (List ℕ))
    (hconv : ∀ r, r < p.gridSize → ∀ c, c < p.gridSize →
      terrainAt p r c ≠ 1 → riskAt p r c = 0) :
    (computeTotals p cov).highRiskCells = (specHighRiskCells p).card := by
  rw [computeTotals_highRiskCells, specHighRiskCells, Finset.card_filter,
    Finset.sum_product]
  refine Finset.sum_congr rfl fun r hr => Finset.sum_congr rfl fun c hc => ?_
  rw [Finset.mem_range] at hr hc
  unfold highContrib
  by_cases ht : terrainAt p r c = 1
  · simp [ht]
  · have h0 : riskAt p r c = 0 := hconv r hr c hc ht
    simp only [ht, false_and, if_false, h0]
    rw [if_neg (by norm_num)]

/-- Under the same convention, the covered-high-risk tally equals the
cardinality of the claim's covered high-risk cell set. -/
theorem coveredHighRisk_eq_card (p : Params) (cov : List (List ℕ))
    (hconv : ∀ r, r < p.gridSize → ∀ c, c < p.gridSize →
      terrainAt p r c ≠ 1 → riskAt p r c = 0) :
    (computeTotals p cov).coveredHighRisk =
      (specHighRiskCovered p cov).card := by
  rw [computeTotals_coveredHighRisk, specHighRiskCovered, specHighRiskCells,
    Finset.filter_filter, Finset.card_filter, Finset.sum_product]
  refine Finset.sum_congr rfl fun r hr => Finset.sum_congr rfl fun c hc => ?_
  rw [Finset.mem_range] at hr hc
  unfold coveredHighContrib
  by_cases ht : terrainAt p r c = 1
  · simp [ht]
  · have h0 : riskAt p r c = 0 := hconv r hr c hc ht
    simp only [ht, false_and, if_false, h0]
    rw [if_neg (by push_neg; intro h; exact absurd h (by norm_num))]

/-- The three statistics of the claim, computed by `statsOf`, equal
their reference definitions. -/
theorem statsOf_spec (p : Params) (cov : List (List ℕ))
    (hconv : ∀ r, r < p.gridSize → ∀ c, c < p.gridSize →
      terrainAt p r c ≠ 1 → riskAt p r c = 0) :
    (statsOf p cov).beforeRisk = specBeforeRisk p ∧
    (statsOf p cov).afterRisk = specAfterRisk p cov ∧
    (statsOf p cov).highRiskCoverage = specHighRiskCoverage p cov := by
  refine ⟨?_, ?_, ?_⟩
  · show (computeTotals p cov).totalRisk / _ = _
    rw [computeTotals_totalRisk, specBeforeRisk]
    rfl
  · show (computeTotals p cov).coveredRisk / _ = _
    rw [computeTotals_coveredRisk, specAfterRisk]
    rfl
  · show (if 0 < (computeTotals p cov).highRiskCells then _ else _) = _
    rw [highRiskCells_eq_card p cov hconv, coveredHighRisk_eq_card p cov hconv,
      specHighRiskCoverage]
    by_cases hz : (specHighRiskCells p).card = 0
    · rw [if_neg (by omega), if_pos hz]
    · rw [if_pos (by omega), if_neg hz]

/-- One unfolding of the walk at a positive step count. -/
theorem walk_succ (p : Params) (fuel row col : ℕ) (path : List (ℕ × ℕ))
    (cov : List (List ℕ)) :
    walk p (fuel + 1) row col path cov =
      match chooseNeighbor p cov (getNeighbors p row col) with
      | none => (path, cov)
      | some b => walk p fuel b.1 b.2 (path ++ [b]) (covInc cov b.1 b.2) :=
  rfl

/-- If start selection fails, the whole per-ranger loop (with at least
one ranger still to generate) fails. -/
theorem genRangers_none (p : Params) (stream : ℕ → ℕ × ℕ)
    (fuel m rid k : ℕ) (acc : List Route) (cov : List (List ℕ))
    (h : findStart p stream k fuel = none) :
    genRangers p stream fuel (m + 1) rid k acc cov = none := by
  unfold genRangers
  rw [h]

end Helpers

section Claims

/-- Claim C1: at every walk step with a non-empty candidate neighbour
list, the next cell appended to the path (and whose coverage is then
incremented) is the candidate maximizing
`score = (risk*2 + (animal ? 1 : 0)) / (coverage + 1)` over the
neighbours in `getNeighbors`'s fixed up-down-left-right order, with
ties broken in favour of the first candidate encountered (every
earlier candidate scores strictly lower), where coverage is read at
the moment of scoring. -/
theorem walk_picks_first_wins_max (p : Params) (fuel row col : ℕ)
    (path : List (ℕ × ℕ)) (cov : List (List ℕ))
    (hne : getNeighbors p row col ≠ []) :
    ∃ b pre post,
      getNeighbors p row col = pre ++ b :: post ∧
      walk p (fuel + 1) row col path cov =
        walk p fuel b.1 b.2 (path ++ [b]) (covInc cov b.1 b.2) ∧
      (∀ n2 ∈ getNeighbors p row col, score p cov n2 ≤ score p cov b) ∧
      (∀ n2 ∈ pre, score p cov n2 < score p cov b) := by
  cases hns : getNeighbors p row col with
  | nil => exact absurd hns hne
  | cons h t =>
    obtain ⟨pre, post, hsplit, hub, hlt⟩ := firstMax_spec (score p cov) t h
    have hcn : chooseNeighbor p cov (getNeighbors p row col) =
        some (firstMax (score p cov) h t) := by
      rw [hns, chooseNeighbor_eq]
    refine ⟨firstMax (score p cov) h t, pre, post, hsplit, ?_, ?_, hlt⟩
    · rw [walk_succ, hcn]
    · intro n2 hn2
      exact hub n2 hn2

/-- Witness for claim C1 at a concrete input: the centre cell of the
3×3 map has candidates, and the theorem applies there. -/
theorem walk_picks_first_wins_max_witness :
    getNeighbors pOpen 1 1 ≠ [] ∧
    ∃ b pre post,
      getNeighbors pOpen 1 1 = pre ++ b :: post ∧
      walk pOpen (0 + 1) 1 1 [] covOpen0 =
        walk pOpen 0 b.1 b.2 ([] ++ [b]) (covInc covOpen0 b.1 b.2) ∧
      (∀ n2 ∈ getNeighbors pOpen 1 1,
        score pOpen covOpen0 n2 ≤ score pOpen covOpen0 b) ∧
      (∀ n2 ∈ pre, score pOpen covOpen0 n2 < score pOpen covOpen0 b) :=
  ⟨by decide, walk_picks_first_wins_max pOpen 0 1 1 [] covOpen0 (by decide)⟩

/-- Claim C2: every cell of every returned route is in bounds and
passable, and consecutive path cells differ by exactly one orthogonal
unit step. -/
theorem routes_within_grid_and_connected (p : Params)
    (stream : ℕ → ℕ × ℕ) (fuel : ℕ) (res : RunResult)
    (hwf : WFTerrain p) (h : runLocalOptimization p stream fuel = some res) :
    ∀ rt ∈ res.routes,
      (∀ cell ∈ rt.path, cell.1 < p.gridSize ∧ cell.2 < p.gridSize ∧
        terrainAt p cell.1 cell.2 = 1) ∧
      List.Chain' adjacent rt.path := by
  simp only [runLocalOptimization] at h
  cases hg : genRangers p stream fuel p.rangerCount 0 0 []
      (List.replicate p.gridSize (List.replicate p.gridSize 0)) with
  | none => rw [hg] at h; simp at h
  | some rc =>
    rw [hg, Option.some.injEq] at h
    subst h
    obtain ⟨new, hroutes, hprops, -, -⟩ :=
      genRangers_spec p stream fuel hwf p.rangerCount 0 0 [] _ rc.1 rc.2
        (covShape_replicate p.gridSize) hg
    intro rt hrt
    rw [show (⟨rc.1, rc.2, statsOf p rc.2⟩ : RunResult).routes = rc.1
        from rfl, hroutes, List.nil_append] at hrt
    exact ⟨fun cell hc => (hprops rt hrt).1 cell hc, (hprops rt hrt).2⟩

/-- Witness for claim C2 at a concrete run on the 3×3 map. -/
theorem routes_within_grid_and_connected_witness :
    WFTerrain pOpen ∧
    runLocalOptimization pOpen constStream 1 = some resOpen ∧
    ∀ rt ∈ resOpen.routes,
      (∀ cell ∈ rt.path, cell.1 < pOpen.gridSize ∧ cell.2 < pOpen.gridSize ∧
        terrainAt pOpen cell.1 cell.2 = 1) ∧
      List.Chain' adjacent rt.path :=
  ⟨by decide, by decide,
   routes_within_grid_and_connected pOpen constStream 1 resOpen
     (by decide) (by decide)⟩

/-- Claim C3: each cell's returned coverage equals the total number of
(route, step) pairs across all returned routes landing on it — in
particular it accumulates across the whole computation and is never
reset. -/
theorem coverage_equals_visit_counts (p : Params) (stream : ℕ → ℕ × ℕ)
    (fuel : ℕ) (res : RunResult) (hwf : WFTerrain p)
    (h : runLocalOptimization p stream fuel = some res) :
    ∀ r c, covGet res.coverage r c =
      ((res.routes.map fun rt => rt.path.count (r, c)).sum) := by
  simp only [runLocalOptimization] at h
  cases hg : genRangers p stream fuel p.rangerCount 0 0 []
      (List.replicate p.gridSize (List.replicate p.gridSize 0)) with
  | none => rw [hg] at h; simp at h
  | some rc =>
    rw [hg, Option.some.injEq] at h
    subst h
    obtain ⟨new, hroutes, -, -, hcount⟩ :=
      genRangers_spec p stream fuel hwf p.rangerCount 0 0 [] _ rc.1 rc.2
        (covShape_replicate p.gridSize) hg
    intro r c
    rw [show (⟨rc.1, rc.2, statsOf p rc.2⟩ : RunResult).coverage = rc.2
        from rfl,
      show (⟨rc.1, rc.2, statsOf p rc.2⟩ : RunResult).routes = rc.1
        from rfl,
      hcount r c, covGet_replicate, Nat.zero_add, hroutes, List.nil_append]

/-- Witness for claim C3 at a concrete run on the 3×3 map. -/
theorem coverage_equals_visit_counts_witness :
    WFTerrain pOpen ∧
    runLocalOptimization pOpen constStream 1 = some resOpen ∧
    ∀ r c, covGet resOpen.coverage r c =
      ((resOpen.routes.map fun rt => rt.path.count (r, c)).sum) :=
  ⟨by decide, by decide,
   coverage_equals_visit_counts pOpen constStream 1 resOpen
     (by decide) (by decide)⟩

/-- Claim C4: the returned statistics equal the reference definitions
computed from the final coverage: `beforeRisk` is the passable-cell
risk sum over `gridSize²`, `afterRisk` the same with covered passable
cells contributing `risk * 0.2`, and `highRiskCoverage` the percentage
of cells with `risk ≥ 0.7` that are covered, `100%` when none exist
(under the data-model convention that impassable cells carry risk 0). -/
theorem stats_equal_reference (p : Params) (stream : ℕ → ℕ × ℕ)
    (fuel : ℕ) (res : RunResult)
    (h : runLocalOptimization p stream fuel = some res)
    (hconv : ∀ r, r < p.gridSize → ∀ c, c < p.gridSize →
      terrainAt p r c ≠ 1 → riskAt p r c = 0) :
    res.stats.beforeRisk = specBeforeRisk p ∧
    res.stats.afterRisk = specAfterRisk p res.coverage ∧
    res.stats.highRiskCoverage = specHighRiskCoverage p res.coverage := by
  simp only [runLocalOptimization] at h
  cases hg : genRangers p stream fuel p.rangerCount 0 0 []
      (List.replicate p.gridSize (List.replicate p.gridSize 0)) with
  | none => rw [hg] at h; simp at h
  | some rc =>
    rw [hg, Option.some.injEq] at h
    subst h
    exact statsOf_spec p rc.2 hconv

/-- Witness for claim C4 at a concrete run on the 3×3 map. -/
theorem stats_equal_reference_witness :
    runLocalOptimization pOpen constStream 1 = some resOpen ∧
    (∀ r, r < pOpen.gridSize → ∀ c, c < pOpen.gridSize →
      terrainAt pOpen r c ≠ 1 → riskAt pOpen r c = 0) ∧
    (resOpen.stats.beforeRisk = specBeforeRisk pOpen ∧
     resOpen.stats.afterRisk = specAfterRisk pOpen resOpen.coverage ∧
     resOpen.stats.highRiskCoverage =
       specHighRiskCoverage pOpen resOpen.coverage) :=
  ⟨by decide, by decide,
   stats_equal_reference pOpen constStream 1 resOpen (by decide) (by decide)⟩

/-- Claim C5: with positive `rangerCount` and `maxSteps`, the returned
route list has exactly `rangerCount` elements with `rangerId`s
`0 .. rangerCount - 1` in generation order, every path length is
between `1` and `maxSteps`, and `maxSteps = 1` yields single-cell
routes. -/
theorem route_count_ids_and_lengths (p : Params) (stream : ℕ → ℕ × ℕ)
    (fuel : ℕ) (res : RunResult)
    (hrc : 0 < p.rangerCount) (hms : 0 < p.maxSteps)
    (h : runLocalOptimization p stream fuel = some res) :
    res.routes.length = p.rangerCount ∧
    (∀ i (hi : i < res.routes.length),
      (res.routes.get ⟨i, hi⟩).rangerId = i) ∧
    (∀ rt ∈ res.routes,
      1 ≤ rt.path.length ∧ rt.path.length ≤ p.maxSteps) ∧
    (p.maxSteps = 1 → ∀ rt ∈ res.routes, ∃ s, rt.path = [s]) := by
  simp only [runLocalOptimization] at h
  cases hg : genRangers p stream fuel p.rangerCount 0 0 []
      (List.replicate p.gridSize (List.replicate p.gridSize 0)) with
  | none => rw [hg] at h; simp at h
  | some rc =>
    rw [hg, Option.some.injEq] at h
    subst h
    obtain ⟨new, hroutes, hlen, hids, hpaths⟩ :=
      genRangers_routes p stream fuel p.rangerCount 0 0 [] _ rc.1 rc.2 hg
    have hr : (⟨rc.1, rc.2, statsOf p rc.2⟩ : RunResult).routes = new := by
      rw [show (⟨rc.1, rc.2, statsOf p rc.2⟩ : RunResult).routes = rc.1
          from rfl, hroutes, List.nil_append]
    rw [hr]
    refine ⟨hlen, ?_, ?_, ?_⟩
    · intro i hi
      rw [hids i hi, Nat.zero_add]
    · intro rt hrt
      obtain ⟨s, suffix, hpath, hslen⟩ := hpaths rt hrt
      rw [hpath]
      constructor
      · simp
      · simp only [List.length_cons]
        omega
    · intro hms1 rt hrt
      obtain ⟨s, suffix, hpath, hslen⟩ := hpaths rt hrt
      rw [hms1] at hslen
      simp only [Nat.sub_self, Nat.le_zero, List.length_eq_zero] at hslen
      exact ⟨s, by rw [hpath, hslen]⟩

/-- Witness for claim C5 at a concrete run on the 3×3 map. -/
theorem route_count_ids_and_lengths_witness :
    0 < pOpen.rangerCount ∧ 0 < pOpen.maxSteps ∧
    runLocalOptimization pOpen constStream 1 = some resOpen ∧
    (resOpen.routes.length = pOpen.rangerCount ∧
     (∀ i (hi : i < resOpen.routes.length),
       (resOpen.routes.get ⟨i, hi⟩).rangerId = i) ∧
     (∀ rt ∈ resOpen.routes,
       1 ≤ rt.path.length ∧ rt.path.length ≤ pOpen.maxSteps) ∧
     (pOpen.maxSteps = 1 → ∀ rt ∈ resOpen.routes, ∃ s, rt.path = [s])) :=
  ⟨by decide, by decide, by decide,
   route_count_ids_and_lengths pOpen constStream 1 resOpen
     (by decide) (by decide) (by decide)⟩

/-- Claim C6 (code divergence): on an all-impassable grid the source's
start-selection retry loop never exits — no number of retry attempts
succeeds for any random stream, so the embedded computation returns
`none` for every fuel bound instead of failing fast with a
`NoPassableCells` error as the claim requires. -/
theorem allImpassable_loops_forever :
    ∀ (stream : ℕ → ℕ × ℕ) (fuel : ℕ),
      runLocalOptimization pBlocked stream fuel = none := by
  intro stream fuel
  have hrow : ∀ c, ([0, 0] : List ℕ).getD c 0 = 0 := by
    intro c
    rcases c with - | c
    · rfl
    rcases c with - | c
    · rfl
    · simp [List.getD_eq_getElem?_getD,
        List.getElem?_eq_none (by simp : ([0,0] : List ℕ).length ≤ c + 2)]
  have hterrain : ∀ r c, terrainAt pBlocked r c = 0 := by
    intro r c
    unfold terrainAt
    rcases r with - | r
    · exact hrow c
    rcases r with - | r
    · exact hrow c
    · simp [List.getD_eq_getElem?_getD,
        List.getElem?_eq_none
          (by simp [pBlocked] : pBlocked.terrainMap.length ≤ r + 2)]
  have hfs : ∀ fuel k, findStart pBlocked stream k fuel = none := by
    intro fuel
    induction fuel with
    | zero => intro k; rfl
    | succ fuel ih =>
      intro k
      unfold findStart
      rw [if_pos (hterrain _ _)]
      exact ih (k + 1)
  simp only [runLocalOptimization]
  have hg : genRangers pBlocked stream fuel pBlocked.rangerCount 0 0 []
      (List.replicate pBlocked.gridSize (List.replicate pBlocked.gridSize 0))
        = none :=
    genRangers_none pBlocked stream fuel 0 0 0 _ _ (hfs fuel 0)
  rw [hg]

/-- Claim C7 (code divergence): with uniform risk `0` the computation
succeeds but `beforeRisk = 0` makes `riskReduction` the result of a
`0 / 0` division — `NaN` (embedded as `none`), not the `0%` the claim
requires. -/
theorem zeroRisk_reports_NaN :
    ∃ res, runLocalOptimization pZeroRisk constStream 1 = some res ∧
      res.stats.beforeRisk = 0 ∧ res.stats.riskReduction = none := by
  exact ⟨⟨[⟨0, [(0, 0)]⟩], [[1]], ⟨0, 0, none, 100⟩⟩, by decide, by decide,
    by decide⟩

/-- Claim C8 (code divergence): the source performs no input
validation — with `rangerCount = 0` the computation succeeds and
returns an empty route list together with coverage and statistics,
instead of failing with an `InvalidConfiguration` error before route
generation. -/
theorem zeroRangers_returns_result :
    runLocalOptimization pNoRangers constStream 1 =
      some ⟨[], [[0]], ⟨1 / 2, 1 / 2, some 0, 100⟩⟩ := by
  decide

/-- Claim C9: the computation is deterministic — identical parameters
and an identical random source yield identical results (routes,
coverage and statistics alike). -/
theorem run_deterministic (p1 p2 : Params) (s1 s2 : ℕ → ℕ × ℕ)
    (fuel : ℕ) (hp : p1 = p2) (hs : s1 = s2) :
    runLocalOptimization p1 s1 fuel = runLocalOptimization p2 s2 fuel := by
  rw [hp, hs]

/-- Witness for claim C9 at a concrete input. -/
theorem run_deterministic_witness :
    pOpen = pOpen ∧ constStream = constStream ∧
    runLocalOptimization pOpen constStream 1 =
      runLocalOptimization pOpen constStream 1 :=
  ⟨rfl, rfl, run_deterministic pOpen pOpen constStream constStream 1 rfl rfl⟩

/-- Claim C10: routes are not guaranteed to be simple paths — on the
1×2 passable corridor with `maxSteps = 3` the greedy walk oscillates
and the returned route visits `(0,0)` twice. -/
theorem route_may_revisit_cells :
    ∃ res, runLocalOptimization pCorridor constStream 1 = some res ∧
      ∃ rt ∈ res.routes, ¬ rt.path.Nodup := by
  refine ⟨⟨[⟨0, [(0, 0), (0, 1), (0, 0)]⟩], [[2, 1], [0, 0]],
    ⟨0, 0, none, 100⟩⟩, by decide, ⟨0, [(0, 0), (0, 1), (0, 0)]⟩,
    by decide, by decide⟩

end Claims

end AntiPoaching
